import Mathlib

/-!
# Verification of the voting-rule library (src/voting.py)

Shallow embedding of the Python module `voting.py`:

* A Python `dict` is modelled as an association list in insertion order
  (`List (Nat × _)`); `d[k]` is `alookup`, `d[k] += v` is `dictAdd`
  (a `KeyError` is modelled by the `none` case of `alookup`), and
  `d.get(k, 0) + 1; d[k] = _` is `dictIncr` (which appends a fresh key
  at the end, as CPython dicts do).
* Python exceptions are modelled by the `Except VErr` monad.  The
  constructors `unknownAgent`, `dimensionMismatch`, `invalidTieBreak`
  correspond to the three `raise ValueError` sites of the source; the
  constructors `keyError`, `indexError`, `emptyMax` model the unguarded
  built-in exceptions `KeyError` (missing dict key), `IndexError`
  (`pref[0]` on an empty list, out-of-range vector index,
  `random.choice([])`), and `ValueError` from `max()`/`min()` on an
  empty sequence.
* A function that ends without executing `return` yields Python `None`;
  this is modelled as `Except.ok none`, distinct from `Except.ok (some a)`
  (returning alternative `a`) and from every `Except.error`.
* The `tie_break` parameter is the enum `TB`; `TB.random draw` carries the
  pseudo-random draw explicitly (`random.choice(winners)` becomes
  `winners[draw % winners.length]`), making the one nondeterministic path
  a function of the draw.  A `tie_break` value that is neither a keyword
  nor a key of the profile behaves exactly like `TB.agent a` with `a`
  absent from the profile.
* Python's `set(preferences[1])` iterates in an unspecified order; it is
  modelled as `firstDedup`, keeping first occurrences.  Every result the
  claims rely on is independent of that order.
-/

namespace Voting

abbrev Ranking := List Nat

abbrev Prof := List (Nat × Ranking)

abbrev ScoreDict := List (Nat × Int)

inductive VErr where
  | unknownAgent
  | dimensionMismatch
  | invalidTieBreak
  | keyError
  | indexError
  | emptyMax
  deriving DecidableEq

inductive TB where
  | max
  | min
  | random (draw : Nat)
  | agent (a : Nat)
  deriving DecidableEq

abbrev VRes := Except VErr (Option Nat)

/-- Python dict lookup `d[k]` (first matching key; keys are unique in a dict). -/
def alookup {β : Type} : List (Nat × β) → Nat → Option β
  | [], _ => none
  | (k, v) :: rest, a => if k = a then some v else alookup rest a

/-- Python `scores[a] += w` on an existing key; a missing key leaves the
dict unchanged (callers test key presence first, mirroring the `KeyError`). -/
def dictAdd : ScoreDict → Nat → Int → ScoreDict
  | [], _, _ => []
  | (k, v) :: rest, a, w => if k = a then (k, v + w) :: rest else (k, v) :: dictAdd rest a w

/-- Python `d[a] = d.get(a, 0) + 1`: increment in place, or append a new key. -/
def dictIncr : ScoreDict → Nat → ScoreDict
  | [], a => [(a, 1)]
  | (k, v) :: rest, a => if k = a then (k, v + 1) :: rest else (k, v) :: dictIncr rest a

/-- The value stored under key `a` (0 when absent; used only via `alookup` guards). -/
def dval (d : ScoreDict) (a : Nat) : Int := (alookup d a).getD 0

/-- The keys of a dict, in insertion order. -/
def dkeys (d : ScoreDict) : List Nat := d.map Prod.fst

/-- Python `max(l)` (`none` models the `ValueError` on an empty sequence). -/
def listMax {α : Type} [LinearOrder α] : List α → Option α
  | [] => none
  | x :: xs =>
    match listMax xs with
    | none => some x
    | some m => some (max x m)

/-- Python `min(l)`. -/
def listMin {α : Type} [LinearOrder α] : List α → Option α
  | [] => none
  | x :: xs =>
    match listMin xs with
    | none => some x
    | some m => some (min x m)

/-- `winners = [alt for alt, val in scores.items() if val == max_score]`,
together with the preceding `max_score = max(scores.values())`. -/
def winnersOf (d : ScoreDict) : Except VErr (List Nat) :=
  match listMax (d.map Prod.snd) with
  | none => .error .emptyMax
  | some mx => .ok ((d.filter fun p => decide (p.2 = mx)).map Prod.fst)

/-- `tie_break_function(preferences, tie_break, winners)` from voting.py.
Note the agent branch: when the agent's ranking contains no winner the
Python `for` loop completes, the trailing `else` (bound to the `elif`)
is not executed, and the function returns `None` — hence `.ok none`. -/
def tie_break_function (prefs : Prof) (tb : TB) (winners : List Nat) : VRes :=
  if winners.length = 1 then .ok winners[0]?
  else
    match tb with
    | .max =>
      match listMax winners with
      | some w => .ok (some w)
      | none => .error .emptyMax
    | .min =>
      match listMin winners with
      | some w => .ok (some w)
      | none => .error .emptyMax
    | .random draw =>
      if winners.isEmpty then .error .indexError
      else .ok winners[draw % winners.length]?
    | .agent a =>
      match alookup prefs a with
      | some rk => .ok (rk.find? fun alt => decide (alt ∈ winners))
      | none => .error .invalidTieBreak

/-- Shared tail of every rule: propagate an error from the winner-set
computation, otherwise delegate the winner list to the tie-break resolver. -/
def finishRule (prefs : Prof) (tb : TB) : Except VErr (List Nat) → VRes
  | .error e => .error e
  | .ok ws => tie_break_function prefs tb ws

/-- `dictatorship(preferences, agent)`: `preferences[agent][0]`, with the
explicit `ValueError` (UnknownAgent) when the agent is missing and the
unguarded `IndexError` when the agent's ranking is empty. -/
def dictatorship (prefs : Prof) (agent : Nat) : VRes :=
  match alookup prefs agent with
  | none => .error .unknownAgent
  | some [] => .error .indexError
  | some (a :: _) => .ok (some a)

/-- `{alt: 0 for alt in l}` (for a duplicate-free `l`). -/
def initScores (l : List Nat) : ScoreDict := l.map fun a => (a, 0)

/-- One ballot's pass of `for i, alt in enumerate(pref): scores[alt] += w i`.
The key is probed first (CPython evaluates `scores[alt]` before the
right-hand side of `+=`), then the positional weight. -/
def rankAccum (w : Nat → Option Int) : ScoreDict → Ranking → Nat → Except VErr ScoreDict
  | d, [], _ => .ok d
  | d, alt :: rest, i =>
    if (alookup d alt).isSome then
      match w i with
      | some v => rankAccum w (dictAdd d alt v) rest (i + 1)
      | none => .error .indexError
    else .error .keyError

/-- `for pref in preferences.values(): ...` over an accumulating dict. -/
def accumAll (f : ScoreDict → Ranking → Except VErr ScoreDict) :
    ScoreDict → List Ranking → Except VErr ScoreDict
  | d, [] => .ok d
  | d, p :: ps =>
    match f d p with
    | .ok d2 => accumAll f d2 ps
    | .error e => .error e

/-- The winner set computed by `scoring_rule` before tie-breaking. -/
def scoringWinners (prefs : Prof) (score_vector : List Int) : Except VErr (List Nat) :=
  match alookup prefs 1 with
  | none => .error .keyError
  | some r1 =>
    if score_vector.length ≠ r1.length then .error .dimensionMismatch
    else
      match accumAll (fun d p => rankAccum (fun i => score_vector[i]?) d p 0)
          (initScores (List.range' 1 r1.length)) (prefs.map Prod.snd) with
      | .error e => .error e
      | .ok d => winnersOf d

/-- `scoring_rule(preferences, score_vector, tie_break)` from voting.py. -/
def scoring_rule (prefs : Prof) (score_vector : List Int) (tb : TB) : VRes :=
  finishRule prefs tb (scoringWinners prefs score_vector)

/-- `top_counts` accumulation of `plurality`; `pref[0]` on an empty ballot
is the unguarded `IndexError`. -/
def topCounts : ScoreDict → List Ranking → Except VErr ScoreDict
  | d, [] => .ok d
  | _, [] :: _ => .error .indexError
  | d, (t :: _) :: ps => topCounts (dictIncr d t) ps

/-- The winner set computed by `plurality` before tie-breaking. -/
def pluralityWinners (prefs : Prof) : Except VErr (List Nat) :=
  match topCounts [] (prefs.map Prod.snd) with
  | .error e => .error e
  | .ok d => winnersOf d

/-- `plurality(preferences, tie_break)` from voting.py. -/
def plurality (prefs : Prof) (tb : TB) : VRes :=
  finishRule prefs tb (pluralityWinners prefs)

/-- First-occurrence de-duplication (auxiliary, with the keys seen so far). -/
def firstDedupAux (seen : List Nat) : List Nat → List Nat
  | [] => []
  | a :: rest =>
    if a ∈ seen then firstDedupAux seen rest else a :: firstDedupAux (a :: seen) rest

/-- The distinct elements of `l`, first occurrences kept in order.  Models
both the dict comprehension `{alt: 0 for alt in preferences[1]}` (whose key
order is first-insertion order) and `set(preferences[1])` (whose iteration
order is unspecified in Python; nothing the claims rely on depends on it). -/
def firstDedup (l : List Nat) : List Nat := firstDedupAux [] l

/-- The winner set computed by `veto` before tie-breaking: 1 point to every
alternative of a ballot except the last (`pref[:-1]`). -/
def vetoWinners (prefs : Prof) : Except VErr (List Nat) :=
  match alookup prefs 1 with
  | none => .error .keyError
  | some r1 =>
    match accumAll (fun d p => rankAccum (fun _ => some 1) d p.dropLast 0)
        (initScores (firstDedup r1)) (prefs.map Prod.snd) with
    | .error e => .error e
    | .ok d => winnersOf d

/-- `veto(preferences, tie_break)` from voting.py. -/
def veto (prefs : Prof) (tb : TB) : VRes :=
  finishRule prefs tb (vetoWinners prefs)

/-- The winner set computed by `borda` before tie-breaking: `m - i` points
to the alternative at 0-indexed rank `i`, with `m = len(preferences[1])`. -/
def bordaWinners (prefs : Prof) : Except VErr (List Nat) :=
  match alookup prefs 1 with
  | none => .error .keyError
  | some r1 =>
    match accumAll (fun d p => rankAccum (fun i => some ((r1.length : Int) - (i : Int))) d p 0)
        (initScores (firstDedup r1)) (prefs.map Prod.snd) with
    | .error e => .error e
    | .ok d => winnersOf d

/-- `borda(preferences, tie_break)` from voting.py. -/
def borda (prefs : Prof) (tb : TB) : VRes :=
  finishRule prefs tb (bordaWinners prefs)

/-- Number of ballots whose current top choice is `a` (the `counts` entry of
an STV round; the source's `if pref: if pref[0] in counts:` guard is
subsumed because the entry is only formed for live alternatives `a`). -/
def countTop (prefs : Prof) (a : Nat) : Nat :=
  (prefs.filter fun p => decide (p.2.head? = some a)).length

/-- The `counts` dict of one STV round, over the live alternatives. -/
def stvCounts (prefs : Prof) (alts : List Nat) : List (Nat × Nat) :=
  alts.map fun a => (a, countTop prefs a)

/-- `min_count = min(counts.values())` of one STV round (the loop guard
guarantees `alts` is nonempty, so the default is never used there). -/
def stvMin (prefs : Prof) (alts : List Nat) : Nat :=
  (listMin ((stvCounts prefs alts).map Prod.snd)).getD 0

/-- `eliminated`: every live alternative achieving the minimum tally. -/
def stvElim (prefs : Prof) (alts : List Nat) : List Nat :=
  ((stvCounts prefs alts).filter fun p => decide (p.2 = stvMin prefs alts)).map Prod.fst

/-- One round of the STV loop: strip every eliminated alternative from every
ballot (`pref.remove(alt)` = erase the first occurrence) and from the live
set. -/
def stvStep (prefs : Prof) (alts : List Nat) : Prof × List Nat :=
  (prefs.map fun p => (p.1, (stvElim prefs alts).foldl List.erase p.2),
   alts.filter fun a => decide (a ∉ stvElim prefs alts))

/-- The STV `while len(alternatives) > 1` loop, with an explicit fuel that
callers set to the number of live alternatives; `stvLoopF_final` below
proves this fuel always suffices (each round strictly shrinks the set). -/
def stvLoopF : Nat → Prof → List Nat → Prof × List Nat
  | 0, prefs, alts => (prefs, alts)
  | fuel + 1, prefs, alts =>
    if alts.length ≤ 1 then (prefs, alts)
    else stvLoopF fuel (stvStep prefs alts).1 (stvStep prefs alts).2

/-- The number of rounds the STV loop executes (same recursion, counting). -/
def stvRoundsF : Nat → Prof → List Nat → Nat
  | 0, _, _ => 0
  | fuel + 1, prefs, alts =>
    if alts.length ≤ 1 then 0
    else stvRoundsF fuel (stvStep prefs alts).1 (stvStep prefs alts).2 + 1

/-- `STV(preferences, tie_break)` from voting.py.  The mutation of
`preferences` is threaded explicitly; the final tie-break receives the
mutated profile and `list(alternatives)`. -/
def STV (prefs : Prof) (tb : TB) : VRes :=
  match alookup prefs 1 with
  | none => .error .keyError
  | some r1 =>
    let res := stvLoopF (firstDedup r1).length prefs (firstDedup r1)
    tie_break_function res.1 tb res.2

/-- The tabular input adapter: row/column extents and a numeric cell value,
1-indexed (the `values` argument of `generate_preferences`). -/
structure Table where
  max_row : Nat
  max_column : Nat
  cell : Nat → Nat → Int

/-- `enumerate(vals, 1)` of one row: (column index, cell value) pairs. -/
def pairsRow (t : Table) (r : Nat) : List (Nat × Int) :=
  (List.range' 1 t.max_column).map fun c => (c, t.cell r c)

/-- Stable insertion into a descending-by-value list: the new element goes
before the first element of value ≤ its own, so earlier-input elements stay
ahead of equal-valued later ones. -/
def insertDesc (x : Nat × Int) : List (Nat × Int) → List (Nat × Int)
  | [] => [x]
  | y :: rest => if y.2 ≤ x.2 then x :: y :: rest else y :: insertDesc x rest

/-- Stable sort by value descending.  Models Python's
`sorted(pairs, key=lambda x: x[1], reverse=True)`: `sorted` is documented
to be stable and `reverse=True` preserves stability, and a stable sort
under a total preorder is extensionally unique, so any stable
implementation is a faithful model. -/
def sortDesc : List (Nat × Int) → List (Nat × Int)
  | [] => []
  | x :: rest => insertDesc x (sortDesc rest)

/-- The ranking produced for one row: column indices by descending value. -/
def rankRow (t : Table) (r : Nat) : Ranking :=
  (sortDesc (pairsRow t r)).map Prod.fst

/-- `generate_preferences(values)` from voting.py. -/
def generate_preferences (t : Table) : Prof :=
  (List.range' 1 t.max_row).map fun r => (r, rankRow t r)

/-- The tie-break policies that involve no pseudo-random draw. -/
def TB.isDeterministic : TB → Bool
  | .random _ => false
  | _ => true

/-- A policy is valid for a profile when it is a keyword or a present agent. -/
def tbValid (prefs : Prof) : TB → Bool
  | .agent a => (alookup prefs a).isSome
  | _ => true

/-- The Borda score vector `[m, m-1, …, 1]` named by the specification. -/
def bordaVec (m : Nat) : List Int :=
  (List.range m).map fun i : Nat => (m : Int) - (i : Int)

/-- The veto score vector `[1, …, 1, 0]` named by the specification. -/
def vetoVec (m : Nat) : List Int := List.replicate (m - 1) 1 ++ [0]

/-- The plurality score vector `[1, 0, …, 0]` named by the specification. -/
def pluralityVec (m : Nat) : List Int := 1 :: List.replicate (m - 1) 0

/-- The winner list of a non-error result (for stating set agreement). -/
def okList : Except VErr (List Nat) → List Nat
  | .ok ws => ws
  | .error _ => []

/-- The total weight one ballot contributes to alternative `a` when scanned
from position `i` with positional weights `w` (the algebraic mirror of
`rankAccum`). -/
def prefContrib (w : Nat → Option Int) : Ranking → Nat → Nat → Int
  | [], _, _ => 0
  | alt :: rest, i, a =>
    (if alt = a then (w i).getD 0 else 0) + prefContrib w rest (i + 1) a

/-- The total weight all ballots contribute to alternative `a`, each ballot
preprocessed by `g` (identity, or `dropLast` for veto). -/
def totContrib (w : Nat → Option Int) (g : Ranking → Ranking)
    (ps : List Ranking) (a : Nat) : Int :=
  (ps.map fun p => prefContrib w (g p) 0 a).sum

/-- How many ballots have alternative `a` as their first choice. -/
def headSum (ps : List Ranking) (a : Nat) : Int :=
  (ps.map fun p => if p.head? = some a then (1 : Int) else 0).sum

/-! ## Theorems for the claims -/

/-- C1: the tie-break resolver, given more than one tied winner and an
agent policy whose ranking (here `[3]`) contains none of the winners
(`[1, 2]`), does not fail with an explicit NoTiebreakMatch error: the
Python `for` loop falls through (the `else: raise` binds to the `elif`
chain, not the loop) and the function returns the implicit `None`,
modelled as `Except.ok none`. -/
theorem tie_break_noMatch_returns_none :
    tie_break_function [(1, [3])] (.agent 1) [1, 2] = .ok none := rfl

/-- C2: a rule can return normally with a value that is not an element of
its pre-tie-break winner set.  `scoring_rule` on the profile
`{1:[1,2], 2:[2,1], 3:[]}` with vector `[1,1]` computes the winner set
`[1, 2]`, yet under tie-break policy agent 3 it returns `None` (not an
alternative); STV on the valid profile `{1:[1,2], 2:[2,1]}` with policy
agent 1 likewise returns `None`. -/
theorem rule_returns_none_outside_winner_set :
    scoringWinners [(1, [1, 2]), (2, [2, 1]), (3, [])] [1, 1] = .ok [1, 2] ∧
    scoring_rule [(1, [1, 2]), (2, [2, 1]), (3, [])] [1, 1] (.agent 3) = .ok none ∧
    STV [(1, [1, 2]), (2, [2, 1])] (.agent 1) = .ok none := ⟨rfl, rfl, rfl⟩

/-- C7: when an STV round eliminates all remaining alternatives at once
(profile `{1:[1,2], 2:[2,1]}`: both alternatives tally 1 and are
simultaneously eliminated), STV does not fail with an explicit
NoAlternativesRemain error: under the `max`/`min` policies it hits the
unguarded `max([])`/`min([])` (Python `ValueError`, modelled `emptyMax`),
and under an agent policy it returns the implicit `None`. -/
theorem stv_total_wipeout_unguarded :
    STV [(1, [1, 2]), (2, [2, 1])] .max = .error .emptyMax ∧
    STV [(1, [1, 2]), (2, [2, 1])] .min = .error .emptyMax := ⟨rfl, rfl⟩

/-- C8 counterexample: InvalidTieBreakPolicy is raised on an *empty*
winners list as well, so "raised only when the winners list has more than
one element" is false: here the list has length 0, not more than one. -/
theorem tie_break_invalid_on_empty_winners :
    tie_break_function [(1, [1, 2])] (.agent 99) [] = .error .invalidTieBreak ∧
    ¬ 1 < ([] : List Nat).length := ⟨rfl, by decide⟩

/-- C8 (amended): a winners list of length exactly one is returned
immediately under every policy, valid or not; and the
InvalidTieBreakPolicy error is raised only when the winners list's length
differs from one (more than one, or zero) and the policy is neither a
keyword nor an agent present in the profile. -/
theorem tie_break_singleton_and_invalid (prefs : Prof) (tb : TB) (ws : List Nat) :
    (ws.length = 1 → tie_break_function prefs tb ws = .ok ws[0]?) ∧
    (tie_break_function prefs tb ws = .error .invalidTieBreak →
      ws.length ≠ 1 ∧ tbValid prefs tb = false) := by
  constructor
  · intro h
    simp [tie_break_function, h]
  · intro h
    by_cases h1 : ws.length = 1
    · simp [tie_break_function, h1] at h
    · refine ⟨h1, ?_⟩
      cases tb with
      | max =>
        simp only [tie_break_function, if_neg h1] at h
        cases hm : listMax ws <;> simp [hm] at h
      | min =>
        simp only [tie_break_function, if_neg h1] at h
        cases hm : listMin ws <;> simp [hm] at h
      | random d =>
        simp only [tie_break_function, if_neg h1] at h
        by_cases he : ws.isEmpty <;> simp [he] at h
      | agent a =>
        simp only [tie_break_function, if_neg h1] at h
        cases hl : alookup prefs a with
        | none => simp [tbValid, hl]
        | some rk => simp [hl] at h

/-- C8 witness: a singleton winner list is returned unchanged even under a
policy that is neither a keyword nor a present agent. -/
theorem tie_break_singleton_witness :
    tie_break_function [] (.agent 99) [5] = .ok [5][0]? :=
  (tie_break_singleton_and_invalid [] (.agent 99) [5]).1 rfl

/-- C9: `dictatorship` returns the top-ranked alternative of the agent's
ranking whenever the agent is a key of the profile (and the ranking has a
first element), and it fails with UnknownAgent exactly when the agent is
not a key (an empty ranking gives the distinct unguarded IndexError, never
UnknownAgent). -/
theorem dictatorship_spec (prefs : Prof) (agent : Nat) :
    (alookup prefs agent = none → dictatorship prefs agent = .error .unknownAgent) ∧
    (∀ a rest, alookup prefs agent = some (a :: rest) →
      dictatorship prefs agent = .ok (some a)) ∧
    (dictatorship prefs agent = .error .unknownAgent → alookup prefs agent = none) := by
  refine ⟨fun h => by simp [dictatorship, h], fun a rest h => by simp [dictatorship, h], ?_⟩
  intro h
  cases hl : alookup prefs agent with
  | none => rfl
  | some rk => cases rk <;> simp [dictatorship, hl] at h

/-- C9 witness: agent 99 is absent from `{1:[2,1]}` and dictatorship fails
with UnknownAgent; agent 1 is present and its top choice 2 is returned. -/
theorem dictatorship_witness :
    dictatorship [(1, [2, 1])] 99 = .error .unknownAgent :=
  (dictatorship_spec [(1, [2, 1])] 99).1 rfl

/-- C10: `scoring_rule`, `veto`, `borda` and `STV` all read
`preferences[1]` before any other work, so on any profile lacking key 1
(the empty profile included) each fails with the unguarded KeyError —
not with a winner and not with an error of the documented taxonomy. -/
theorem missing_agent_one_unguarded (prefs : Prof) (h : alookup prefs 1 = none)
    (sv : List Int) (tb : TB) :
    scoring_rule prefs sv tb = .error .keyError ∧
    veto prefs tb = .error .keyError ∧
    borda prefs tb = .error .keyError ∧
    STV prefs tb = .error .keyError := by
  simp [scoring_rule, scoringWinners, h, finishRule, veto, vetoWinners, borda,
    bordaWinners, STV]

/-- C10 witness: the empty profile (which an empty input table yields)
makes all four rules fail with the unguarded KeyError. -/
theorem missing_agent_one_witness :
    scoring_rule [] [] .max = .error .keyError ∧
    veto [] .max = .error .keyError ∧
    borda [] .max = .error .keyError ∧
    STV [] .max = .error .keyError :=
  missing_agent_one_unguarded [] rfl [] .max

/-! ### STV round lemmas (C6) -/

theorem listMin_mem {α : Type} [LinearOrder α] {l : List α} (h : l ≠ []) :
    ∃ m, listMin l = some m ∧ m ∈ l := by
  induction l with
  | nil => exact absurd rfl h
  | cons x xs ih =>
    cases hx : listMin xs with
    | none => exact ⟨x, by simp [listMin, hx], by simp⟩
    | some m =>
      have hxs : xs ≠ [] := by
        intro he
        rw [he] at hx
        simp [listMin] at hx
      obtain ⟨m1, hm1, hmem⟩ := ih hxs
      rw [hx] at hm1
      cases hm1
      refine ⟨min x m, by simp [listMin, hx], ?_⟩
      rcases min_choice x m with hc | hc <;> rw [hc] <;> simp [hmem]

theorem stvElim_mem_iff (prefs : Prof) (alts : List Nat) (a : Nat) :
    a ∈ stvElim prefs alts ↔ a ∈ alts ∧ countTop prefs a = stvMin prefs alts := by
  constructor
  · intro ha
    obtain ⟨pr, hpr, hfst⟩ := List.mem_map.mp ha
    obtain ⟨hprc, hmin⟩ := List.mem_filter.mp hpr
    obtain ⟨b, hb, hbeq⟩ := List.mem_map.mp hprc
    subst hbeq
    simp only [decide_eq_true_eq] at hmin
    obtain rfl : b = a := hfst
    exact ⟨hb, hmin⟩
  · rintro ⟨ha, hmin⟩
    exact List.mem_map.mpr ⟨(a, countTop prefs a),
      List.mem_filter.mpr ⟨List.mem_map.mpr ⟨a, ha, rfl⟩, by simp [hmin]⟩, rfl⟩

theorem stvElim_ne_nil (prefs : Prof) (alts : List Nat) (h : alts ≠ []) :
    stvElim prefs alts ≠ [] := by
  have hne : (stvCounts prefs alts).map Prod.snd ≠ [] := by
    simp [stvCounts, h]
  obtain ⟨m, hm, hmem⟩ := listMin_mem hne
  obtain ⟨pr, hpr, hpr2⟩ := List.mem_map.mp hmem
  obtain ⟨b, hb, hbpr⟩ := List.mem_map.mp hpr
  have hmin : stvMin prefs alts = m := by simp [stvMin, hm]
  apply List.ne_nil_of_mem (a := b)
  rw [stvElim_mem_iff]
  refine ⟨hb, ?_⟩
  rw [hmin, ← hpr2, ← hbpr]

theorem stvStep_shrinks (prefs : Prof) (alts : List Nat) (h : alts ≠ []) :
    (stvStep prefs alts).2.length < alts.length := by
  have helim := stvElim_ne_nil prefs alts h
  obtain ⟨a, ha⟩ := List.exists_mem_of_ne_nil _ helim
  have hmem := (stvElim_mem_iff prefs alts a).mp ha
  simp only [stvStep]
  apply List.length_filter_lt_length_iff_exists.mpr
  exact ⟨a, hmem.1, by simp [ha]⟩

theorem stvRoundsF_le (fuel : Nat) : ∀ (prefs : Prof) (alts : List Nat),
    alts.length ≤ fuel → stvRoundsF fuel prefs alts ≤ alts.length - 1 := by
  induction fuel with
  | zero =>
    intro prefs alts _
    simp [stvRoundsF]
  | succ n ih =>
    intro prefs alts h
    by_cases h1 : alts.length ≤ 1
    · simp [stvRoundsF, h1]
    · have hne : alts ≠ [] := by
        intro he
        rw [he] at h1
        simp at h1
      have hlt := stvStep_shrinks prefs alts hne
      have hih := ih (stvStep prefs alts).1 (stvStep prefs alts).2 (by omega)
      simp only [stvRoundsF, if_neg h1]
      omega

theorem stvLoopF_final (fuel : Nat) : ∀ (prefs : Prof) (alts : List Nat),
    alts.length ≤ fuel → (stvLoopF fuel prefs alts).2.length ≤ 1 := by
  induction fuel with
  | zero =>
    intro prefs alts h
    simp only [stvLoopF]
    omega
  | succ n ih =>
    intro prefs alts h
    by_cases h1 : alts.length ≤ 1
    · simp [stvLoopF, h1]
    · have hne : alts ≠ [] := by
        intro he
        rw [he] at h1
        simp at h1
      have hlt := stvStep_shrinks prefs alts hne
      have hih := ih (stvStep prefs alts).1 (stvStep prefs alts).2 (by omega)
      simpa [stvLoopF, h1] using hih

/-- C6: in every STV round on more than one live alternative, the
eliminated set is exactly the set of live alternatives achieving the
minimum top-choice tally and is nonempty, so the live set strictly
shrinks; consequently the loop (run with its fuel, which `stvLoopF_final`
shows always suffices) executes at most `m - 1` rounds for `m` live
alternatives and terminates with at most one alternative live. -/
theorem stv_round_shrinkage (prefs : Prof) (alts : List Nat) (h : 1 < alts.length) :
    stvElim prefs alts ≠ [] ∧
    (∀ a, a ∈ stvElim prefs alts ↔ a ∈ alts ∧ countTop prefs a = stvMin prefs alts) ∧
    (stvStep prefs alts).2.length < alts.length ∧
    stvRoundsF alts.length prefs alts ≤ alts.length - 1 ∧
    (stvLoopF alts.length prefs alts).2.length ≤ 1 := by
  have hne : alts ≠ [] := by
    intro he
    rw [he] at h
    simp at h
  exact ⟨stvElim_ne_nil prefs alts hne, stvElim_mem_iff prefs alts,
    stvStep_shrinks prefs alts hne, stvRoundsF_le alts.length prefs alts le_rfl,
    stvLoopF_final alts.length prefs alts le_rfl⟩

/-- C6 witness: on the profile `{1:[1,2,3], 2:[2,1,3]}` with live set
`[1,2,3]` the round's elimination is nonempty and the live set strictly
shrinks. -/
theorem stv_round_shrinkage_witness :
    stvElim [(1, [1, 2, 3]), (2, [2, 1, 3])] [1, 2, 3] ≠ [] ∧
    (stvStep [(1, [1, 2, 3]), (2, [2, 1, 3])] [1, 2, 3]).2.length < 3 :=
  ⟨(stv_round_shrinkage [(1, [1, 2, 3]), (2, [2, 1, 3])] [1, 2, 3] (by decide)).1,
   (stv_round_shrinkage [(1, [1, 2, 3]), (2, [2, 1, 3])] [1, 2, 3] (by decide)).2.2.1⟩

/-! ### Profile construction lemmas (C3) -/

theorem insertDesc_perm (x : Nat × Int) (l : List (Nat × Int)) :
    (insertDesc x l).Perm (x :: l) := by
  induction l with
  | nil => exact List.Perm.refl _
  | cons y rest ih =>
    by_cases h : y.2 ≤ x.2
    · simp [insertDesc, h]
    · simp only [insertDesc, if_neg h]
      exact (ih.cons y).trans (List.Perm.swap x y rest)

theorem sortDesc_perm (l : List (Nat × Int)) : (sortDesc l).Perm l := by
  induction l with
  | nil => exact List.Perm.refl _
  | cons x rest ih => exact (insertDesc_perm x (sortDesc rest)).trans (ih.cons x)

theorem insertDesc_pairwise (x : Nat × Int) (l : List (Nat × Int))
    (hl : l.Pairwise fun p q => q.2 < p.2 ∨ (p.2 = q.2 ∧ p.1 < q.1))
    (hx : ∀ y ∈ l, x.2 = y.2 → x.1 < y.1) :
    (insertDesc x l).Pairwise fun p q => q.2 < p.2 ∨ (p.2 = q.2 ∧ p.1 < q.1) := by
  induction l with
  | nil => simp [insertDesc]
  | cons y rest ih =>
    rcases List.pairwise_cons.mp hl with ⟨hy, hrest⟩
    by_cases h : y.2 ≤ x.2
    · simp only [insertDesc, if_pos h]
      refine List.Pairwise.cons ?_ hl
      intro z hz
      rcases List.mem_cons.mp hz with rfl | hz2
      · rcases lt_or_eq_of_le h with hlt | heq
        · exact Or.inl hlt
        · exact Or.inr ⟨heq.symm, hx z (List.mem_cons_self _ _) heq.symm⟩
      · have hyz := hy z hz2
        have hz2y : z.2 ≤ y.2 := by
          rcases hyz with hlt | ⟨heq, _⟩
          · exact le_of_lt hlt
          · exact le_of_eq heq.symm
        rcases lt_or_eq_of_le (le_trans hz2y h) with hlt | heq
        · exact Or.inl hlt
        · exact Or.inr ⟨heq.symm, hx z (List.mem_cons_of_mem _ hz2) heq.symm⟩
    · simp only [insertDesc, if_neg h]
      push_neg at h
      refine List.Pairwise.cons ?_
        (ih hrest fun z hz hzq => hx z (List.mem_cons_of_mem _ hz) hzq)
      intro z hz
      rcases List.mem_cons.mp ((insertDesc_perm x rest).mem_iff.mp hz) with rfl | hz2
      · exact Or.inl h
      · exact hy z hz2

theorem sortDesc_pairwise (l : List (Nat × Int))
    (hl : l.Pairwise fun p q => p.1 < q.1) :
    (sortDesc l).Pairwise fun p q => q.2 < p.2 ∨ (p.2 = q.2 ∧ p.1 < q.1) := by
  induction l with
  | nil => simp [sortDesc]
  | cons x rest ih =>
    rcases List.pairwise_cons.mp hl with ⟨hx, hrest⟩
    refine insertDesc_pairwise x (sortDesc rest) (ih hrest) ?_
    intro y hy _
    exact hx y ((sortDesc_perm rest).mem_iff.mp hy)

theorem alookup_map_self {β : Type} (f : Nat → β) (l : List Nat) (a : Nat) (h : a ∈ l) :
    alookup (l.map fun x => (x, f x)) a = some (f a) := by
  induction l with
  | nil => simp at h
  | cons b rest ih =>
    by_cases hb : b = a
    · subst hb
      simp [alookup]
    · rcases List.mem_cons.mp h with rfl | h2
      · exact absurd rfl hb
      · simp only [List.map_cons, alookup, if_neg hb]
        exact ih h2

/-- C3: for every tabular input and every row `r` of it,
`generate_preferences` maps agent `r` to a ranking that is a permutation
of the column indices `1..column_count`, ordered by strictly descending
cell value with equal-valued columns kept in ascending column order
(the stable-sort tie-break). -/
theorem generate_preferences_correct (t : Table) (r : Nat)
    (hr : r ∈ List.range' 1 t.max_row) :
    alookup (generate_preferences t) r = some (rankRow t r) ∧
    (rankRow t r).Perm (List.range' 1 t.max_column) ∧
    (rankRow t r).Pairwise fun a b =>
      t.cell r b < t.cell r a ∨ (t.cell r a = t.cell r b ∧ a < b) := by
  refine ⟨alookup_map_self _ _ _ hr, ?_, ?_⟩
  · have h1 : (rankRow t r).Perm ((pairsRow t r).map Prod.fst) :=
      (sortDesc_perm (pairsRow t r)).map Prod.fst
    have h2 : (pairsRow t r).map Prod.fst = List.range' 1 t.max_column := by
      simp only [pairsRow, List.map_map]
      exact List.map_id _ ▸ rfl
    rw [h2] at h1
    exact h1
  · have hfst : (pairsRow t r).Pairwise fun p q => p.1 < q.1 := by
      rw [pairsRow, List.pairwise_map]
      exact List.pairwise_lt_range' 1 t.max_column
    have hmemform : ∀ p ∈ sortDesc (pairsRow t r), p.2 = t.cell r p.1 := by
      intro p hp
      obtain ⟨c, _, rfl⟩ := List.mem_map.mp ((sortDesc_perm _).mem_iff.mp hp)
      rfl
    rw [rankRow, List.pairwise_map]
    refine (sortDesc_pairwise _ hfst).imp_of_mem ?_
    intro p q hp hq hpq
    rw [← hmemform p hp, ← hmemform q hq]
    exact hpq

/-- C3 witness: a concrete 2×3 table with a tie in row 2 (columns 1 and 3
both value 7): row 1 sorts strictly descending, row 2 puts column 1 before
column 3 (stable tie-break by original column order). -/
theorem generate_preferences_correct_witness :
    alookup (generate_preferences (Table.mk 2 3 fun r c =>
      if r = 1 then (10 * c : Int) else if c = 2 then 9 else 7)) 2 =
      some (rankRow (Table.mk 2 3 fun r c =>
        if r = 1 then (10 * c : Int) else if c = 2 then 9 else 7) 2) ∧
    (rankRow (Table.mk 2 3 fun r c =>
      if r = 1 then (10 * c : Int) else if c = 2 then 9 else 7) 2).Perm
      (List.range' 1 3) ∧
    (rankRow (Table.mk 2 3 fun r c =>
      if r = 1 then (10 * c : Int) else if c = 2 then 9 else 7) 2).Pairwise
      fun a b =>
        (Table.mk 2 3 fun r c =>
          if r = 1 then (10 * c : Int) else if c = 2 then 9 else 7).cell 2 b <
          (Table.mk 2 3 fun r c =>
            if r = 1 then (10 * c : Int) else if c = 2 then 9 else 7).cell 2 a ∨
        ((Table.mk 2 3 fun r c =>
          if r = 1 then (10 * c : Int) else if c = 2 then 9 else 7).cell 2 a =
          (Table.mk 2 3 fun r c =>
            if r = 1 then (10 * c : Int) else if c = 2 then 9 else 7).cell 2 b ∧
          a < b) :=
  generate_preferences_correct
    (Table.mk 2 3 fun r c => if r = 1 then (10 * c : Int) else if c = 2 then 9 else 7)
    2 (by decide)

/-! ### Dictionary and accumulation lemmas (shared by C4 and C5) -/

theorem alookup_mem {β : Type} {l : List (Nat × β)} {a : Nat} {b : β}
    (h : alookup l a = some b) : (a, b) ∈ l := by
  induction l with
  | nil => simp [alookup] at h
  | cons kv rest ih =>
    obtain ⟨k, v⟩ := kv
    by_cases hk : k = a
    · subst hk
      simp only [alookup, eq_self_iff_true, if_true] at h
      rw [Option.some.injEq] at h
      subst h
      exact List.mem_cons_self _ _
    · simp only [alookup, if_neg hk] at h
      exact List.mem_cons_of_mem _ (ih h)

theorem alookup_isSome_iff {β : Type} (l : List (Nat × β)) (a : Nat) :
    (alookup l a).isSome = true ↔ a ∈ l.map Prod.fst := by
  induction l with
  | nil => simp [alookup]
  | cons kv rest ih =>
    obtain ⟨k, v⟩ := kv
    by_cases hk : k = a
    · subst hk
      simp [alookup]
    · simp [alookup, hk, ih, Ne.symm hk]

theorem alookup_dictAdd_self (d : ScoreDict) (k : Nat) (w : Int) :
    alookup (dictAdd d k w) k = (alookup d k).map (· + w) := by
  induction d with
  | nil => rfl
  | cons kv rest ih =>
    obtain ⟨k2, v⟩ := kv
    by_cases hk : k2 = k
    · subst hk
      simp [dictAdd, alookup]
    · simp [dictAdd, alookup, hk, ih]

theorem alookup_dictAdd_ne (d : ScoreDict) (k a : Nat) (w : Int) (h : a ≠ k) :
    alookup (dictAdd d k w) a = alookup d a := by
  induction d with
  | nil => rfl
  | cons kv rest ih =>
    obtain ⟨k2, v⟩ := kv
    by_cases hk : k2 = k
    · subst hk
      have hne : ¬ k2 = a := fun he => h he.symm
      simp only [dictAdd, eq_self_iff_true, if_true, alookup, if_neg hne]
    · simp only [dictAdd, if_neg hk, alookup]
      by_cases ha : k2 = a
      · rw [if_pos ha, if_pos ha]
      · rw [if_neg ha, if_neg ha, ih]

theorem dkeys_dictAdd (d : ScoreDict) (k : Nat) (w : Int) :
    dkeys (dictAdd d k w) = dkeys d := by
  induction d with
  | nil => rfl
  | cons kv rest ih =>
    obtain ⟨k2, v⟩ := kv
    by_cases hk : k2 = k
    · simp [dictAdd, dkeys, hk]
    · simp only [dictAdd, if_neg hk, dkeys, List.map_cons]
      rw [show (dictAdd rest k w).map Prod.fst = dkeys (dictAdd rest k w) from rfl, ih]
      rfl

theorem dval_dictAdd (d : ScoreDict) (k : Nat) (w : Int)
    (h : (alookup d k).isSome = true) (a : Nat) :
    dval (dictAdd d k w) a = dval d a + (if k = a then w else 0) := by
  by_cases hk : k = a
  · subst hk
    obtain ⟨v, hv⟩ := Option.isSome_iff_exists.mp h
    simp [dval, alookup_dictAdd_self, hv]
  · simp [dval, alookup_dictAdd_ne d k a w (fun he => hk he.symm), hk]

theorem mem_dkeys_iff (d : ScoreDict) (a : Nat) :
    a ∈ dkeys d ↔ (alookup d a).isSome = true :=
  (alookup_isSome_iff d a).symm

theorem rankAccum_ok (w : Nat → Option Int) (pref : Ranking) :
    ∀ (d : ScoreDict) (i : Nat),
    (∀ x ∈ pref, (alookup d x).isSome = true) →
    (∀ j, j < pref.length → (w (i + j)).isSome = true) →
    ∃ d2, rankAccum w d pref i = .ok d2 ∧ dkeys d2 = dkeys d ∧
      ∀ a, dval d2 a = dval d a + prefContrib w pref i a := by
  induction pref with
  | nil =>
    intro d i _ _
    exact ⟨d, rfl, rfl, fun a => by simp [prefContrib]⟩
  | cons alt rest ih =>
    intro d i hk hw
    have halt : (alookup d alt).isSome = true := hk alt (List.mem_cons_self _ _)
    have hwi : (w i).isSome = true := by
      have := hw 0 (by simp)
      simpa using this
    obtain ⟨v, hv⟩ := Option.isSome_iff_exists.mp hwi
    have hk2 : ∀ x ∈ rest, (alookup (dictAdd d alt v) x).isSome = true := by
      intro x hx
      rw [← mem_dkeys_iff, dkeys_dictAdd, mem_dkeys_iff]
      exact hk x (List.mem_cons_of_mem _ hx)
    have hw2 : ∀ j, j < rest.length → (w (i + 1 + j)).isSome = true := by
      intro j hj
      have heq : i + 1 + j = i + (j + 1) := by omega
      rw [heq]
      exact hw (j + 1) (by simpa using Nat.succ_lt_succ hj)
    obtain ⟨d2, hacc, hkeys, hval⟩ := ih (dictAdd d alt v) (i + 1) hk2 hw2
    refine ⟨d2, ?_, hkeys.trans (dkeys_dictAdd d alt v), ?_⟩
    · simp only [rankAccum, halt, if_true, hv]
      exact hacc
    · intro a
      rw [hval a, dval_dictAdd d alt v halt a]
      simp only [prefContrib, hv, Option.getD_some]
      rw [add_assoc]

theorem accumAll_ok (w : Nat → Option Int) (g : Ranking → Ranking) (ps : List Ranking) :
    ∀ d : ScoreDict,
    (∀ p ∈ ps, ∀ x ∈ g p, x ∈ dkeys d) →
    (∀ p ∈ ps, ∀ j, j < (g p).length → (w j).isSome = true) →
    ∃ d2, accumAll (fun d3 p => rankAccum w d3 (g p) 0) d ps = .ok d2 ∧
      dkeys d2 = dkeys d ∧
      ∀ a, dval d2 a = dval d a + totContrib w g ps a := by
  induction ps with
  | nil =>
    intro d _ _
    exact ⟨d, rfl, rfl, fun a => by simp [totContrib]⟩
  | cons p ps2 ih =>
    intro d hkeys hw
    obtain ⟨d1, hacc1, hk1, hv1⟩ := rankAccum_ok w (g p) d 0
      (fun x hx => (mem_dkeys_iff d x).mp (hkeys p (List.mem_cons_self _ _) x hx))
      (fun j hj => by simpa using hw p (List.mem_cons_self _ _) j hj)
    obtain ⟨d2, hacc2, hk2, hv2⟩ := ih d1
      (fun q hq x hx => hk1 ▸ hkeys q (List.mem_cons_of_mem _ hq) x hx)
      (fun q hq => hw q (List.mem_cons_of_mem _ hq))
    refine ⟨d2, ?_, hk2.trans hk1, ?_⟩
    · simp only [accumAll, hacc1]
      exact hacc2
    · intro a
      rw [hv2 a, hv1 a]
      simp only [totContrib, List.map_cons, List.sum_cons]
      ring

theorem dkeys_initScores (l : List Nat) : dkeys (initScores l) = l := by
  show ((l.map fun a => (a, (0 : Int))).map Prod.fst) = l
  rw [List.map_map]
  exact List.map_id _ ▸ rfl

theorem dval_initScores (l : List Nat) (a : Nat) : dval (initScores l) a = 0 := by
  induction l with
  | nil => rfl
  | cons x xs ih =>
    by_cases hx : x = a
    · simp [initScores, dval, alookup, hx]
    · simp only [initScores, List.map_cons, dval, alookup, if_neg hx]
      exact ih

theorem firstDedupAux_of_nodup (l : List Nat) :
    ∀ seen : List Nat, l.Nodup → (∀ x ∈ l, x ∉ seen) → firstDedupAux seen l = l := by
  induction l with
  | nil => intro seen _ _; rfl
  | cons a rest ih =>
    intro seen hnd hdisj
    rcases List.nodup_cons.mp hnd with ⟨hna, hrest⟩
    have ha : a ∉ seen := hdisj a (List.mem_cons_self _ _)
    simp only [firstDedupAux, if_neg ha]
    rw [ih (a :: seen) hrest]
    intro x hx
    rw [List.mem_cons]
    rintro (rfl | hxs)
    · exact hna hx
    · exact hdisj x (List.mem_cons_of_mem _ hx) hxs

theorem firstDedup_of_nodup {l : List Nat} (h : l.Nodup) : firstDedup l = l :=
  firstDedupAux_of_nodup l [] h (by simp)

/-! ### Maximum, minimum and tie-break congruence lemmas -/

theorem listMax_eq_none_iff {α : Type} [LinearOrder α] {l : List α} :
    listMax l = none ↔ l = [] := by
  cases l with
  | nil => simp [listMax]
  | cons x xs =>
    simp only [listMax]
    cases listMax xs <;> simp

theorem listMax_eq_some_iff {α : Type} [LinearOrder α] {l : List α} {m : α} :
    listMax l = some m ↔ m ∈ l ∧ ∀ b ∈ l, b ≤ m := by
  induction l generalizing m with
  | nil => simp [listMax]
  | cons x xs ih =>
    cases hx : listMax xs with
    | none =>
      have hnil : xs = [] := listMax_eq_none_iff.mp hx
      subst hnil
      simp only [listMax, Option.some.injEq, List.mem_singleton, List.mem_cons]
      constructor
      · rintro rfl
        exact ⟨by simp, by simp⟩
      · rintro ⟨hm, hb⟩
        simp only [List.not_mem_nil, or_false] at hm
        exact hm.symm
    | some mx =>
      have hmx := ih.mp hx
      simp only [listMax, hx, Option.some.injEq]
      constructor
      · rintro rfl
        constructor
        · rcases max_choice x mx with hc | hc <;> rw [hc]
          · exact List.mem_cons_self _ _
          · exact List.mem_cons_of_mem _ hmx.1
        · intro b hb
          rcases List.mem_cons.mp hb with rfl | hb2
          · exact le_max_left _ _
          · exact le_trans (hmx.2 b hb2) (le_max_right _ _)
      · rintro ⟨hm, hb⟩
        apply le_antisymm
        · exact max_le (hb x (List.mem_cons_self _ _))
            (hb mx (List.mem_cons_of_mem _ hmx.1))
        · rcases List.mem_cons.mp hm with rfl | hm2
          · exact le_max_left _ _
          · exact le_trans (hmx.2 m hm2) (le_max_right _ _)

theorem listMin_eq_none_iff {α : Type} [LinearOrder α] {l : List α} :
    listMin l = none ↔ l = [] := by
  cases l with
  | nil => simp [listMin]
  | cons x xs =>
    simp only [listMin]
    cases listMin xs <;> simp

theorem listMin_eq_some_iff {α : Type} [LinearOrder α] {l : List α} {m : α} :
    listMin l = some m ↔ m ∈ l ∧ ∀ b ∈ l, m ≤ b := by
  induction l generalizing m with
  | nil => simp [listMin]
  | cons x xs ih =>
    cases hx : listMin xs with
    | none =>
      have hnil : xs = [] := listMin_eq_none_iff.mp hx
      subst hnil
      simp only [listMin, Option.some.injEq, List.mem_singleton, List.mem_cons]
      constructor
      · rintro rfl
        exact ⟨by simp, by simp⟩
      · rintro ⟨hm, hb⟩
        simp only [List.not_mem_nil, or_false] at hm
        exact hm.symm
    | some mx =>
      have hmx := ih.mp hx
      simp only [listMin, hx, Option.some.injEq]
      constructor
      · rintro rfl
        constructor
        · rcases min_choice x mx with hc | hc <;> rw [hc]
          · exact List.mem_cons_self _ _
          · exact List.mem_cons_of_mem _ hmx.1
        · intro b hb
          rcases List.mem_cons.mp hb with rfl | hb2
          · exact min_le_left _ _
          · exact le_trans (min_le_right _ _) (hmx.2 b hb2)
      · rintro ⟨hm, hb⟩
        apply le_antisymm
        · rcases List.mem_cons.mp hm with rfl | hm2
          · exact min_le_left _ _
          · exact le_trans (min_le_right _ _) (hmx.2 m hm2)
        · exact le_min (hb x (List.mem_cons_self _ _))
            (hb mx (List.mem_cons_of_mem _ hmx.1))

theorem listMax_perm {α : Type} [LinearOrder α] {l1 l2 : List α}
    (h : l1.Perm l2) : listMax l1 = listMax l2 := by
  cases h1 : listMax l1 with
  | none =>
    rw [listMax_eq_none_iff.mp h1] at h
    rw [listMax_eq_none_iff.mpr (h.nil_eq).symm]
  | some m =>
    obtain ⟨hm, hb⟩ := listMax_eq_some_iff.mp h1
    exact (listMax_eq_some_iff.mpr
      ⟨h.mem_iff.mp hm, fun b hbm => hb b (h.mem_iff.mpr hbm)⟩).symm

theorem listMin_perm {α : Type} [LinearOrder α] {l1 l2 : List α}
    (h : l1.Perm l2) : listMin l1 = listMin l2 := by
  cases h1 : listMin l1 with
  | none =>
    rw [listMin_eq_none_iff.mp h1] at h
    rw [listMin_eq_none_iff.mpr (h.nil_eq).symm]
  | some m =>
    obtain ⟨hm, hb⟩ := listMin_eq_some_iff.mp h1
    exact (listMin_eq_some_iff.mpr
      ⟨h.mem_iff.mp hm, fun b hbm => hb b (h.mem_iff.mpr hbm)⟩).symm

theorem find?_congr {α : Type} (l : List α) (p q : α → Bool)
    (h : ∀ x ∈ l, p x = q x) : l.find? p = l.find? q := by
  induction l with
  | nil => rfl
  | cons x xs ih =>
    by_cases hq : q x = true
    · rw [List.find?_cons_of_pos xs (h x (List.mem_cons_self _ _) ▸ hq),
        List.find?_cons_of_pos xs hq]
    · rw [List.find?_cons_of_neg xs (h x (List.mem_cons_self _ _) ▸ hq),
        List.find?_cons_of_neg xs hq]
      exact ih fun y hy => h y (List.mem_cons_of_mem _ hy)

theorem tie_break_perm (prefs : Prof) (tb : TB) {ws1 ws2 : List Nat}
    (hdet : tb.isDeterministic = true) (h : ws1.Perm ws2) :
    tie_break_function prefs tb ws1 = tie_break_function prefs tb ws2 := by
  have hlen := h.length_eq
  by_cases h1 : ws1.length = 1
  · have h2 : ws2.length = 1 := hlen ▸ h1
    obtain ⟨a, ha⟩ := List.length_eq_one.mp h1
    obtain ⟨b, hb⟩ := List.length_eq_one.mp h2
    subst ha
    subst hb
    obtain rfl : a = b := by
      have := h.mem_iff (a := a)
      simpa using this
    rfl
  · have h2 : ¬ ws2.length = 1 := fun he => h1 (hlen ▸ he)
    cases tb with
    | max =>
      simp only [tie_break_function, if_neg h1, if_neg h2, listMax_perm h]
    | min =>
      simp only [tie_break_function, if_neg h1, if_neg h2, listMin_perm h]
    | random d => simp [TB.isDeterministic] at hdet
    | agent a =>
      simp only [tie_break_function, if_neg h1, if_neg h2]
      cases alookup prefs a with
      | none => rfl
      | some rk =>
        show Except.ok (rk.find? fun alt => decide (alt ∈ ws1)) =
          Except.ok (rk.find? fun alt => decide (alt ∈ ws2))
        rw [find?_congr rk _ _ fun x _ => decide_eq_decide.mpr (h.mem_iff)]

theorem dict_eq_self_map {d : ScoreDict} (h : (dkeys d).Nodup) :
    d = d.map fun pr => (pr.1, dval d pr.1) := by
  induction d with
  | nil => rfl
  | cons kv rest ih =>
    obtain ⟨k, v⟩ := kv
    have hk : k ∉ dkeys rest ∧ (dkeys rest).Nodup := by
      simpa [dkeys] using List.nodup_cons.mp h
    have hhead : dval ((k, v) :: rest) k = v := by
      simp [dval, alookup]
    simp only [List.map_cons]
    rw [hhead]
    congr 1
    have hstep : ∀ pr ∈ rest,
        (fun pr2 : Nat × Int => (pr2.1, dval ((k, v) :: rest) pr2.1)) pr =
        (fun pr2 : Nat × Int => (pr2.1, dval rest pr2.1)) pr := by
      intro pr hpr
      have hprk : ¬ k = pr.1 :=
        fun he => hk.1 (he ▸ List.mem_map_of_mem Prod.fst hpr)
      simp [dval, alookup, hprk]
    rw [List.map_congr_left hstep]
    exact ih hk.2

theorem dict_eq_keys_map {d : ScoreDict} (h : (dkeys d).Nodup) :
    d = (dkeys d).map fun k => (k, dval d k) := by
  have h1 := dict_eq_self_map h
  calc d = d.map fun pr => (pr.1, dval d pr.1) := h1
    _ = (d.map Prod.fst).map fun k => (k, dval d k) := by
        rw [List.map_map]
        exact List.map_congr_left fun pr _ => rfl
    _ = (dkeys d).map fun k => (k, dval d k) := rfl

theorem dict_perm {d1 d2 : ScoreDict} (h1 : (dkeys d1).Nodup)
    (h2 : (dkeys d2).Nodup) (hmem : ∀ a, a ∈ dkeys d1 ↔ a ∈ dkeys d2)
    (hval : ∀ a, dval d1 a = dval d2 a) : d1.Perm d2 := by
  have hk : (dkeys d1).Perm (dkeys d2) :=
    (List.perm_ext_iff_of_nodup h1 h2).mpr hmem
  have e1 : d1 = (dkeys d1).map fun k => (k, dval d1 k) := dict_eq_keys_map h1
  have e2 : d2 = (dkeys d2).map fun k => (k, dval d2 k) := dict_eq_keys_map h2
  have e3 : ((dkeys d1).map fun k => (k, dval d1 k)) =
      (dkeys d1).map fun k => (k, dval d2 k) :=
    List.map_congr_left fun a _ => by rw [hval a]
  have hperm2 : ((dkeys d1).map fun k => (k, dval d2 k)).Perm d2 := by
    have hmap := hk.map fun k => (k, dval d2 k)
    rwa [← e2] at hmap
  have step1 : d1.Perm ((dkeys d1).map fun k => (k, dval d2 k)) := by
    rw [← e3, ← e1]
  exact step1.trans hperm2

theorem winnersOf_perm {d1 d2 : ScoreDict} (h : d1.Perm d2) :
    (winnersOf d1 = .error .emptyMax ∧ winnersOf d2 = .error .emptyMax) ∨
    ∃ ws1 ws2, winnersOf d1 = .ok ws1 ∧ winnersOf d2 = .ok ws2 ∧ ws1.Perm ws2 := by
  have hmax : listMax (d1.map Prod.snd) = listMax (d2.map Prod.snd) :=
    listMax_perm (h.map _)
  cases hm : listMax (d1.map Prod.snd) with
  | none =>
    left
    constructor
    · simp [winnersOf, hm]
    · simp [winnersOf, ← hmax, hm]
  | some mx =>
    right
    have hm2 : listMax (d2.map Prod.snd) = some mx := by rw [← hmax, hm]
    refine ⟨(d1.filter fun p => decide (p.2 = mx)).map Prod.fst,
      (d2.filter fun p => decide (p.2 = mx)).map Prod.fst, ?_, ?_,
      (h.filter _).map _⟩
    · simp [winnersOf, hm]
    · simp [winnersOf, hm2]

theorem finishRule_winnersOf_perm (prefs : Prof) (tb : TB)
    (hdet : tb.isDeterministic = true) {d1 d2 : ScoreDict} (h : d1.Perm d2) :
    finishRule prefs tb (winnersOf d1) = finishRule prefs tb (winnersOf d2) := by
  rcases winnersOf_perm h with ⟨e1, e2⟩ | ⟨ws1, ws2, e1, e2, hp⟩
  · rw [e1, e2]
  · rw [e1, e2]
    exact tie_break_perm prefs tb hdet hp

/-! ### Score-vector and contribution lemmas (C4, C5) -/

theorem bordaVec_length (m : Nat) : (bordaVec m).length = m := by
  rw [bordaVec, List.length_map, List.length_range]

theorem bordaVec_getElem (m i : Nat) (h : i < m) :
    (bordaVec m)[i]? = some ((m : Int) - (i : Int)) := by
  rw [bordaVec, List.getElem?_map, List.getElem?_range h]
  rfl

theorem vetoVec_length (m : Nat) (h : 0 < m) : (vetoVec m).length = m := by
  simp only [vetoVec, List.length_append, List.length_replicate,
    List.length_singleton]
  omega

theorem vetoVec_getElem_lt (m i : Nat) (h : i < m - 1) :
    (vetoVec m)[i]? = some 1 := by
  rw [vetoVec, List.getElem?_append_left (by simpa using h)]
  simp [List.getElem?_replicate, h]

theorem vetoVec_getElem_last (m : Nat) :
    (vetoVec m)[m - 1]? = some 0 := by
  rw [vetoVec, List.getElem?_append_right (by simp)]
  simp

theorem vetoVec_isSome (m j : Nat) (h : j < m) :
    ((vetoVec m)[j]?).isSome = true := by
  rcases Nat.lt_or_ge j (m - 1) with hj | hj
  · rw [vetoVec_getElem_lt m j hj]
    rfl
  · have : j = m - 1 := by omega
    rw [this, vetoVec_getElem_last m]
    rfl

theorem prefContrib_congr (w1 w2 : Nat → Option Int) (pref : Ranking) :
    ∀ i : Nat, (∀ j, j < pref.length → w1 (i + j) = w2 (i + j)) →
    ∀ a, prefContrib w1 pref i a = prefContrib w2 pref i a := by
  induction pref with
  | nil => intro i _ a; rfl
  | cons alt rest ih =>
    intro i hw a
    have h0 : w1 i = w2 i := by simpa using hw 0 (by simp)
    simp only [prefContrib, h0]
    congr 1
    apply ih
    intro j hj
    have heq : i + 1 + j = i + (j + 1) := by omega
    rw [heq]
    exact hw (j + 1) (by simpa using Nat.succ_lt_succ hj)

theorem prefContrib_veto (m : Nat) (pref : Ranking) :
    ∀ i : Nat, i + pref.length = m → ∀ a,
    prefContrib (fun j => (vetoVec m)[j]?) pref i a =
    prefContrib (fun _ => some 1) pref.dropLast i a := by
  induction pref with
  | nil => intro i _ a; rfl
  | cons alt rest ih =>
    intro i hlen a
    cases rest with
    | nil =>
      have hi : i = m - 1 := by
        simp only [List.length_singleton] at hlen
        omega
      subst hi
      simp only [prefContrib, List.dropLast_single, vetoVec_getElem_last m]
      simp [prefContrib]
    | cons b rest2 =>
      have hi : i < m - 1 := by
        simp only [List.length_cons] at hlen
        omega
      simp only [prefContrib, List.dropLast_cons₂, vetoVec_getElem_lt m i hi]
      congr 1
      apply ih
      simp only [List.length_cons] at hlen ⊢
      omega

theorem accumAll_initScores (w : Nat → Option Int) (g : Ranking → Ranking)
    (K : List Nat) (ps : List Ranking)
    (hkeys : ∀ p ∈ ps, ∀ x ∈ g p, x ∈ K)
    (hw : ∀ p ∈ ps, ∀ j, j < (g p).length → (w j).isSome = true) :
    ∃ d2, accumAll (fun d3 p => rankAccum w d3 (g p) 0) (initScores K) ps = .ok d2 ∧
      dkeys d2 = K ∧ ∀ a, dval d2 a = totContrib w g ps a := by
  obtain ⟨d2, hacc, hk, hv⟩ := accumAll_ok w g ps (initScores K)
    (fun p hp x hx => (dkeys_initScores K).symm ▸ hkeys p hp x hx) hw
  exact ⟨d2, hacc, hk.trans (dkeys_initScores K),
    fun a => by rw [hv a, dval_initScores, zero_add]⟩

/-- C4 counterexample: (i) under the `random` policy with the same draw,
`borda {1:[2,1], 2:[1,2]}` returns 2 while `scoring_rule` with `[2,1]`
returns 1 (their winner lists `[2,1]` and `[1,2]` are ordered by the
different dict-key insertion orders); (ii) on the profile `{1:[1,3]}`,
whose ranking is not a permutation of `{1,2}`, `borda`/`veto` succeed
while `scoring_rule` hits the unguarded KeyError (its score dict is keyed
`1..m`, theirs by `preferences[1]`); (iii) for `m = 0` the veto vector
`[0]` has length 1, so `scoring_rule` fails with DimensionMismatch while
`veto` fails with the empty-`max()` ValueError. -/
theorem scoring_borda_veto_counterexample :
    borda [(1, [2, 1]), (2, [1, 2])] (.random 0) = .ok (some 2) ∧
    scoring_rule [(1, [2, 1]), (2, [1, 2])] (bordaVec 2) (.random 0) = .ok (some 1) ∧
    borda [(1, [1, 3])] .max = .ok (some 1) ∧
    scoring_rule [(1, [1, 3])] (bordaVec 2) .max = .error .keyError ∧
    veto [(1, [1, 3])] .max = .ok (some 1) ∧
    scoring_rule [(1, [1, 3])] (vetoVec 2) .max = .error .keyError ∧
    veto [(1, [])] .max = .error .emptyMax ∧
    scoring_rule [(1, [])] (vetoVec 0) .max = .error .dimensionMismatch :=
  ⟨rfl, rfl, rfl, rfl, rfl, rfl, rfl, rfl⟩

/-- C4 (amended): on every profile whose rankings are permutations of
`{1..m}` and for every deterministic tie-break policy (`max`, `min`, or
agent-based — under `random` the two winner lists hold the same
alternatives but in different orders, so the same draw may select
different elements), `scoring_rule` with `[m, m-1, …, 1]` returns exactly
what `borda` returns, and (for `m ≥ 1`) `scoring_rule` with `[1, …, 1, 0]`
returns exactly what `veto` returns. -/
theorem scoring_rule_eq_borda_veto (prefs : Prof) (r1 : Ranking) (m : Nat) (tb : TB)
    (h1 : alookup prefs 1 = some r1)
    (hperm : ∀ p ∈ prefs, p.2.Perm (List.range' 1 m))
    (hdet : tb.isDeterministic = true) :
    scoring_rule prefs (bordaVec m) tb = borda prefs tb ∧
    (0 < m → scoring_rule prefs (vetoVec m) tb = veto prefs tb) := by
  have hr1 : r1.Perm (List.range' 1 m) := hperm (1, r1) (alookup_mem h1)
  have hlen : r1.length = m := by
    have hh := hr1.length_eq
    simpa [List.length_range'] using hh
  have hnodup : r1.Nodup := hr1.symm.nodup (List.nodup_range' 1 m)
  have hfd : firstDedup r1 = r1 := firstDedup_of_nodup hnodup
  have hvlen : ∀ p ∈ prefs.map Prod.snd, p.length = m := by
    intro p hp
    obtain ⟨pr, hpr, rfl⟩ := List.mem_map.mp hp
    have hh := (hperm pr hpr).length_eq
    simpa [List.length_range'] using hh
  have hvmem : ∀ p ∈ prefs.map Prod.snd, ∀ x ∈ p, x ∈ List.range' 1 m := by
    intro p hp x hx
    obtain ⟨pr, hpr, rfl⟩ := List.mem_map.mp hp
    exact (hperm pr hpr).mem_iff.mp hx
  have hvmem1 : ∀ p ∈ prefs.map Prod.snd, ∀ x ∈ p, x ∈ r1 := by
    intro p hp x hx
    exact hr1.mem_iff.mpr (hvmem p hp x hx)
  constructor
  · obtain ⟨dS, haccS, hkS, hvS⟩ := accumAll_initScores (fun i => (bordaVec m)[i]?)
      (fun p => p) (List.range' 1 m) (prefs.map Prod.snd) hvmem
      (fun p hp j hj => by
        have hjm : j < m := by simpa [hvlen p hp] using hj
        show ((bordaVec m)[j]?).isSome = true
        rw [bordaVec_getElem m j hjm]
        rfl)
    obtain ⟨dB, haccB, hkB, hvB⟩ := accumAll_initScores
      (fun i => some ((r1.length : Int) - (i : Int))) (fun p => p) r1
      (prefs.map Prod.snd) hvmem1 (fun p hp j hj => rfl)
    have hdperm : dS.Perm dB := by
      refine dict_perm (hkS ▸ List.nodup_range' 1 m) (hkB ▸ hnodup) ?_ ?_
      · intro a
        rw [hkS, hkB]
        exact hr1.mem_iff.symm
      · intro a
        rw [hvS a, hvB a, totContrib, totContrib]
        congr 1
        apply List.map_congr_left
        intro p hp
        apply prefContrib_congr
        intro j hj
        have hjm : j < m := by simpa [hvlen p hp] using hj
        simp only [Nat.zero_add]
        rw [bordaVec_getElem m j hjm, hlen]
    have hcond : ¬ ((bordaVec m).length ≠ m) := by
      rw [bordaVec_length]
      exact fun hne => hne rfl
    have hSW : scoringWinners prefs (bordaVec m) = winnersOf dS := by
      simp only [scoringWinners, h1, if_neg hcond, hlen, haccS]
    have hBW : bordaWinners prefs = winnersOf dB := by
      simp only [bordaWinners, h1, hfd, haccB]
    show finishRule prefs tb (scoringWinners prefs (bordaVec m)) =
      finishRule prefs tb (bordaWinners prefs)
    rw [hSW, hBW]
    exact finishRule_winnersOf_perm prefs tb hdet hdperm
  · intro hm
    obtain ⟨dS, haccS, hkS, hvS⟩ := accumAll_initScores (fun i => (vetoVec m)[i]?)
      (fun p => p) (List.range' 1 m) (prefs.map Prod.snd) hvmem
      (fun p hp j hj => by
        have hjm : j < m := by simpa [hvlen p hp] using hj
        exact vetoVec_isSome m j hjm)
    obtain ⟨dV, haccV, hkV, hvV⟩ := accumAll_initScores (fun _ => some 1)
      (fun p => p.dropLast) r1 (prefs.map Prod.snd)
      (fun p hp x hx => hvmem1 p hp x (List.mem_of_mem_dropLast hx))
      (fun p hp j hj => rfl)
    have hdperm : dS.Perm dV := by
      refine dict_perm (hkS ▸ List.nodup_range' 1 m) (hkV ▸ hnodup) ?_ ?_
      · intro a
        rw [hkS, hkV]
        exact hr1.mem_iff.symm
      · intro a
        rw [hvS a, hvV a, totContrib, totContrib]
        congr 1
        apply List.map_congr_left
        intro p hp
        exact prefContrib_veto m p 0 (by simpa using hvlen p hp) a
    have hcond : ¬ ((vetoVec m).length ≠ m) := by
      rw [vetoVec_length m hm]
      exact fun hne => hne rfl
    have hSW : scoringWinners prefs (vetoVec m) = winnersOf dS := by
      simp only [scoringWinners, h1, if_neg hcond, hlen, haccS]
    have hVW : vetoWinners prefs = winnersOf dV := by
      simp only [vetoWinners, h1, hfd, haccV]
    show finishRule prefs tb (scoringWinners prefs (vetoVec m)) =
      finishRule prefs tb (vetoWinners prefs)
    rw [hSW, hVW]
    exact finishRule_winnersOf_perm prefs tb hdet hdperm

/-- C4 witness: on the valid profile `{1:[1,2], 2:[2,1]}` over `m = 2`
with the `max` policy, the generic scoring rule with `[2,1]` and `[1,0]`
agrees with `borda` and `veto` respectively. -/
theorem scoring_rule_eq_borda_veto_witness :
    scoring_rule [(1, [1, 2]), (2, [2, 1])] (bordaVec 2) .max =
      borda [(1, [1, 2]), (2, [2, 1])] .max ∧
    scoring_rule [(1, [1, 2]), (2, [2, 1])] (vetoVec 2) .max =
      veto [(1, [1, 2]), (2, [2, 1])] .max :=
  ⟨(scoring_rule_eq_borda_veto [(1, [1, 2]), (2, [2, 1])] [1, 2] 2 .max rfl
      (by decide) rfl).1,
   (scoring_rule_eq_borda_veto [(1, [1, 2]), (2, [2, 1])] [1, 2] 2 .max rfl
      (by decide) rfl).2 (by decide)⟩

/-! ### Plurality lemmas (C5) -/

theorem alookup_dictIncr_self (d : ScoreDict) (k : Nat) :
    alookup (dictIncr d k) k = some (dval d k + 1) := by
  induction d with
  | nil => simp [dictIncr, alookup, dval]
  | cons kv rest ih =>
    obtain ⟨k2, v⟩ := kv
    by_cases hk : k2 = k
    · subst hk
      simp [dictIncr, alookup, dval]
    · simp only [dictIncr, if_neg hk, alookup]
      rw [ih]
      congr 2
      simp [dval, alookup, hk]

theorem alookup_dictIncr_ne (d : ScoreDict) (k a : Nat) (h : a ≠ k) :
    alookup (dictIncr d k) a = alookup d a := by
  induction d with
  | nil =>
    have hne : ¬ k = a := fun he => h he.symm
    simp [dictIncr, alookup, hne]
  | cons kv rest ih =>
    obtain ⟨k2, v⟩ := kv
    by_cases hk : k2 = k
    · subst hk
      have hne : ¬ k2 = a := fun he => h he.symm
      simp [dictIncr, alookup, hne]
    · simp only [dictIncr, if_neg hk, alookup]
      by_cases ha : k2 = a
      · rw [if_pos ha, if_pos ha]
      · rw [if_neg ha, if_neg ha, ih]

theorem dval_dictIncr (d : ScoreDict) (k a : Nat) :
    dval (dictIncr d k) a = dval d a + (if k = a then 1 else 0) := by
  by_cases hk : k = a
  · subst hk
    simp [dval, alookup_dictIncr_self]
  · simp [dval, alookup_dictIncr_ne d k a fun he => hk he.symm, hk]

theorem dkeys_dictIncr_mem (d : ScoreDict) (k a : Nat) :
    a ∈ dkeys (dictIncr d k) ↔ a ∈ dkeys d ∨ a = k := by
  induction d with
  | nil => simp [dictIncr, dkeys]
  | cons kv rest ih =>
    obtain ⟨k2, v⟩ := kv
    by_cases hk : k2 = k
    · subst hk
      simp only [dictIncr, eq_self_iff_true, if_true, dkeys, List.map_cons,
        List.mem_cons]
      tauto
    · simp only [dictIncr, if_neg hk, dkeys, List.map_cons, List.mem_cons]
      rw [show (dictIncr rest k).map Prod.fst = dkeys (dictIncr rest k) from rfl, ih]
      tauto

theorem dkeys_dictIncr_nodup (d : ScoreDict) (k : Nat)
    (h : (dkeys d).Nodup) : (dkeys (dictIncr d k)).Nodup := by
  induction d with
  | nil => simp [dictIncr, dkeys]
  | cons kv rest ih =>
    obtain ⟨k2, v⟩ := kv
    have hsplit : k2 ∉ dkeys rest ∧ (dkeys rest).Nodup := by
      simpa [dkeys] using List.nodup_cons.mp h
    by_cases hk : k2 = k
    · subst hk
      simpa [dictIncr, dkeys] using h
    · simp only [dictIncr, if_neg hk, dkeys, List.map_cons]
      rw [List.nodup_cons]
      refine ⟨?_, by simpa [dkeys] using ih hsplit.2⟩
      intro hmem
      rcases (dkeys_dictIncr_mem rest k k2).mp hmem with h2 | h2
      · exact hsplit.1 h2
      · exact hk h2

theorem topCounts_ok (ps : List Ranking) :
    ∀ d : ScoreDict, (∀ p ∈ ps, p ≠ []) →
    ∃ d2, topCounts d ps = .ok d2 ∧
      (∀ a, dval d2 a = dval d a + headSum ps a) ∧
      (∀ a, a ∈ dkeys d2 ↔ a ∈ dkeys d ∨ ∃ p ∈ ps, p.head? = some a) ∧
      ((dkeys d).Nodup → (dkeys d2).Nodup) := by
  induction ps with
  | nil =>
    intro d _
    exact ⟨d, rfl, fun a => by simp [headSum], fun a => by simp, fun h => h⟩
  | cons p ps2 ih =>
    intro d hne
    cases p with
    | nil => exact absurd rfl (hne [] (List.mem_cons_self _ _))
    | cons t rest =>
      obtain ⟨d2, hacc, hval, hkeys, hnd⟩ := ih (dictIncr d t)
        fun q hq => hne q (List.mem_cons_of_mem _ hq)
      refine ⟨d2, ?_, ?_, ?_, ?_⟩
      · simp only [topCounts]
        exact hacc
      · intro a
        rw [hval a, dval_dictIncr]
        have hhead : headSum ((t :: rest) :: ps2) a =
            (if t = a then (1 : Int) else 0) + headSum ps2 a := by
          simp [headSum]
        rw [hhead]
        ring
      · intro a
        rw [hkeys a, dkeys_dictIncr_mem]
        constructor
        · rintro ((h2 | rfl) | ⟨q, hq, hh⟩)
          · exact Or.inl h2
          · exact Or.inr ⟨a :: rest, List.mem_cons_self _ _, by simp⟩
          · exact Or.inr ⟨q, List.mem_cons_of_mem _ hq, hh⟩
        · rintro (h2 | ⟨q, hq, hh⟩)
          · exact Or.inl (Or.inl h2)
          · rcases List.mem_cons.mp hq with rfl | hq2
            · simp only [List.head?_cons, Option.some.injEq] at hh
              exact Or.inl (Or.inr hh.symm)
            · exact Or.inr ⟨q, hq2, hh⟩
      · intro h
        exact hnd (dkeys_dictIncr_nodup d t h)

theorem pluralityVec_length (m : Nat) (h : 0 < m) : (pluralityVec m).length = m := by
  simp only [pluralityVec, List.length_cons, List.length_replicate]
  omega

theorem pluralityVec_getElem_zero (m : Nat) : (pluralityVec m)[0]? = some 1 := by
  rw [pluralityVec, List.getElem?_cons_zero]

theorem pluralityVec_getElem_pos (m j : Nat) (h1 : 0 < j) (h2 : j < m) :
    (pluralityVec m)[j]? = some 0 := by
  cases j with
  | zero => omega
  | succ k =>
    show (pluralityVec m)[k + 1]? = some 0
    rw [pluralityVec, List.getElem?_cons_succ, List.getElem?_replicate]
    rw [if_pos (by omega)]

theorem prefContrib_zero_of (w : Nat → Option Int) (pref : Ranking) :
    ∀ i : Nat, (∀ j, j < pref.length → (w (i + j)).getD 0 = 0) →
    ∀ a, prefContrib w pref i a = 0 := by
  induction pref with
  | nil => intro i _ a; rfl
  | cons alt rest ih =>
    intro i hw a
    have h0 : (w i).getD 0 = 0 := by simpa using hw 0 (by simp)
    simp only [prefContrib, h0, ite_self, zero_add]
    apply ih
    intro j hj
    have heq : i + 1 + j = i + (j + 1) := by omega
    rw [heq]
    exact hw (j + 1) (by simpa using Nat.succ_lt_succ hj)

theorem prefContrib_plurality (m : Nat) (pref : Ranking)
    (hlen : pref.length = m) (a : Nat) :
    prefContrib (fun j => (pluralityVec m)[j]?) pref 0 a =
    (if pref.head? = some a then (1 : Int) else 0) := by
  cases pref with
  | nil => simp [prefContrib]
  | cons t rest =>
    have hm : 0 < m := by
      rw [← hlen]
      simp
    have hz : prefContrib (fun j => (pluralityVec m)[j]?) rest 1 a = 0 := by
      apply prefContrib_zero_of
      intro j hj
      show ((pluralityVec m)[1 + j]?).getD 0 = 0
      rw [pluralityVec_getElem_pos m (1 + j) (by omega)
        (by rw [← hlen]; simp only [List.length_cons]; omega)]
      rfl
    simp only [prefContrib, Nat.zero_add, hz, add_zero, List.head?_cons,
      Option.some.injEq, pluralityVec_getElem_zero, Option.getD_some]

/-- C5: on every profile over alternatives `1..m` (each ranking a
permutation of `1..m`, `m ≥ 1`) in which every alternative is somebody's
top choice, `scoring_rule` with `[1, 0, …, 0]` and `plurality` both
compute their winner sets without error and those sets contain exactly
the same alternatives. -/
theorem scoring_plurality_agree (prefs : Prof) (r1 : Ranking) (m : Nat)
    (h1 : alookup prefs 1 = some r1) (hm : 0 < m)
    (hperm : ∀ p ∈ prefs, p.2.Perm (List.range' 1 m))
    (hcover : ∀ a ∈ List.range' 1 m, ∃ p ∈ prefs, p.2.head? = some a) :
    (scoringWinners prefs (pluralityVec m)).isOk = true ∧
    (pluralityWinners prefs).isOk = true ∧
    ∀ a, a ∈ okList (scoringWinners prefs (pluralityVec m)) ↔
      a ∈ okList (pluralityWinners prefs) := by
  have hr1 : r1.Perm (List.range' 1 m) := hperm (1, r1) (alookup_mem h1)
  have hlen : r1.length = m := by
    have hh := hr1.length_eq
    simpa [List.length_range'] using hh
  have hvlen : ∀ p ∈ prefs.map Prod.snd, p.length = m := by
    intro p hp
    obtain ⟨pr, hpr, rfl⟩ := List.mem_map.mp hp
    have hh := (hperm pr hpr).length_eq
    simpa [List.length_range'] using hh
  have hvmem : ∀ p ∈ prefs.map Prod.snd, ∀ x ∈ p, x ∈ List.range' 1 m := by
    intro p hp x hx
    obtain ⟨pr, hpr, rfl⟩ := List.mem_map.mp hp
    exact (hperm pr hpr).mem_iff.mp hx
  obtain ⟨dS, haccS, hkS, hvS⟩ := accumAll_initScores (fun i => (pluralityVec m)[i]?)
    (fun p => p) (List.range' 1 m) (prefs.map Prod.snd) hvmem
    (fun p hp j hj => by
      have hjm : j < m := by simpa [hvlen p hp] using hj
      have hlt : j < (pluralityVec m).length := by
        rw [pluralityVec_length m hm]
        exact hjm
      show ((pluralityVec m)[j]?).isSome = true
      rw [List.getElem?_eq_getElem hlt]
      rfl)
  have hvS2 : ∀ a, dval dS a = headSum (prefs.map Prod.snd) a := by
    intro a
    rw [hvS a, totContrib, headSum]
    congr 1
    apply List.map_congr_left
    intro p hp
    exact prefContrib_plurality m p (hvlen p hp) a
  have hne : ∀ p ∈ prefs.map Prod.snd, p ≠ [] := by
    intro p hp he
    have := hvlen p hp
    rw [he] at this
    simp at this
    omega
  obtain ⟨dP, haccP, hvP, hkP, hndP⟩ := topCounts_ok (prefs.map Prod.snd) [] hne
  have hvP2 : ∀ a, dval dP a = headSum (prefs.map Prod.snd) a := by
    intro a
    rw [hvP a]
    show (0 : Int) + headSum (prefs.map Prod.snd) a = headSum (prefs.map Prod.snd) a
    rw [zero_add]
  have hkP2 : ∀ a, a ∈ dkeys dP ↔ a ∈ List.range' 1 m := by
    intro a
    rw [hkP a]
    constructor
    · rintro (h2 | ⟨p, hp, hh⟩)
      · simp [dkeys] at h2
      · cases p with
        | nil => simp at hh
        | cons t rest =>
          simp only [List.head?_cons, Option.some.injEq] at hh
          subst hh
          exact hvmem _ hp t (List.mem_cons_self _ _)
    · intro ha
      obtain ⟨pr, hpr, hh⟩ := hcover a ha
      exact Or.inr ⟨pr.2, List.mem_map_of_mem Prod.snd hpr, hh⟩
  have hdperm : dS.Perm dP := by
    refine dict_perm (hkS ▸ List.nodup_range' 1 m) (hndP (by simp [dkeys])) ?_ ?_
    · intro a
      rw [hkS]
      exact (hkP2 a).symm
    · intro a
      rw [hvS2 a, hvP2 a]
  have hSok : ∃ wsS, winnersOf dS = .ok wsS := by
    cases hmx : listMax (dS.map Prod.snd) with
    | none =>
      exfalso
      have hnil : dS.map Prod.snd = [] := listMax_eq_none_iff.mp hmx
      have hdnil : dS = [] := List.map_eq_nil_iff.mp hnil
      rw [hdnil] at hkS
      have : (1 : Nat) ∈ List.range' 1 m := by
        simp [List.mem_range']
        omega
      rw [← hkS] at this
      simp [dkeys] at this
    | some mx =>
      exact ⟨(dS.filter fun p => decide (p.2 = mx)).map Prod.fst,
        by simp [winnersOf, hmx]⟩
  obtain ⟨wsS, hwsS⟩ := hSok
  rcases winnersOf_perm hdperm with ⟨e1, _⟩ | ⟨ws1, ws2, e1, e2, hp⟩
  · rw [hwsS] at e1
    exact absurd e1 (by simp)
  · rw [e1] at hwsS
    have hSW : scoringWinners prefs (pluralityVec m) = winnersOf dS := by
      have hcond : ¬ ((pluralityVec m).length ≠ m) := by
        rw [pluralityVec_length m hm]
        exact fun hne2 => hne2 rfl
      simp only [scoringWinners, h1, if_neg hcond, hlen, haccS]
    have hPW : pluralityWinners prefs = winnersOf dP := by
      simp only [pluralityWinners, haccP]
    refine ⟨?_, ?_, ?_⟩
    · rw [hSW, e1]
      rfl
    · rw [hPW, e2]
      rfl
    · intro a
      rw [hSW, hPW, e1, e2]
      show a ∈ ws1 ↔ a ∈ ws2
      exact hp.mem_iff

/-- C5 witness: on `{1:[1,2], 2:[2,1]}` (every alternative top-ranked
once) both winner computations succeed. -/
theorem scoring_plurality_agree_witness :
    (scoringWinners [(1, [1, 2]), (2, [2, 1])] (pluralityVec 2)).isOk = true ∧
    (pluralityWinners [(1, [1, 2]), (2, [2, 1])]).isOk = true :=
  ⟨(scoring_plurality_agree [(1, [1, 2]), (2, [2, 1])] [1, 2] 2 rfl (by decide)
      (by decide) (by decide)).1,
   (scoring_plurality_agree [(1, [1, 2]), (2, [2, 1])] [1, 2] 2 rfl (by decide)
      (by decide) (by decide)).2.1⟩


end Voting
